import Mathlib

/-!
Shallow embedding of `src/src/mtftable.c` (repository MTFlista): a generic
associative table storing key/value entries in an ordered sequence, with a
user-supplied key comparison function and optional key/value free functions.

Modelled from the spec: the `dlist` collaborator (`dlist.h`) is declared but
its implementation is not under `src/`. Per the spec (sections 2 and 6) it is
an ordered sequence offering empty-construction, head-position query,
end-of-sequence query, insert-before-position, inspect-at-position,
advance-position, and remove-at-position returning the next valid position.
We model such a sequence of entries as a Lean `List` and each position-based
`while (!dlist_is_end ...)` loop of the C code as structural recursion over
the suffix of the list that starts at the current position.

C keys and values are opaque `void *` handles; the embedding is parametric in
the key type `κ` and value type `ν`. The comparison function returns an `Int`
(C `int`); "compares equal" means the result is `0`. The optional free
functions are modelled by a `Bool` recording whether a function was supplied
(non-NULL), and their invocations are observed as an explicit trace of
`FreeEvent`s. Likewise, every call the table makes to the key comparison
function is recorded in a trace of argument pairs, so that argument order is
observable.
-/

namespace MTFTable

/-- One invocation of a user-supplied free function: either the key free
function applied to a stored key, or the value free function applied to a
stored value. -/
inductive FreeEvent (κ ν : Type) where
  | freeKey (k : κ)
  | freeValue (v : ν)
deriving DecidableEq, Repr

/-- Whether an event is an invocation of the key free function. -/
def FreeEvent.isKeyEvent : FreeEvent κ ν → Bool
  | .freeKey _ => true
  | .freeValue _ => false

/-- Whether an event is an invocation of the value free function. -/
def FreeEvent.isValueEvent : FreeEvent κ ν → Bool
  | .freeKey _ => false
  | .freeValue _ => true

/-- `struct table` (mtftable.c:25-30): a dlist of `table_entry` (each a
key/value pair, here `κ × ν`), the key comparison function, and the two
optional free functions (modelled as `Bool`: was a non-NULL function
supplied?). -/
structure Table (κ ν : Type) where
  entries : List (κ × ν)
  key_cmp_func : κ → κ → Int
  key_free_func : Bool
  value_free_func : Bool

/-- `table_empty` (mtftable.c:49-63): create a table with an empty entry
list, storing the comparison function and the two free functions. -/
def table_empty (key_cmp_func : κ → κ → Int)
    (key_free_func value_free_func : Bool) : Table κ ν :=
  { entries := []
    key_cmp_func := key_cmp_func
    key_free_func := key_free_func
    value_free_func := value_free_func }

/-- `table_is_empty` (mtftable.c:71-74): true iff the backing dlist holds no
entries (`dlist_is_empty`, modelled from the spec as emptiness of the
sequence). -/
def table_is_empty (t : Table κ ν) : Bool :=
  t.entries.isEmpty

/-- `table_insert` (mtftable.c:89-99): allocate a new entry holding the given
key and value and insert it before the first position of the dlist
(`dlist_insert(t->entries, entry, dlist_first(t->entries))`), i.e. prepend it
to the sequence. -/
def table_insert (t : Table κ ν) (key : κ) (value : ν) : Table κ ν :=
  { t with entries := (key, value) :: t.entries }

/-- Run a whole batch of inserts, oldest first, starting from a given
table. -/
def insertAll (t : Table κ ν) (ops : List (κ × ν)) : Table κ ν :=
  ops.foldl (fun t p => table_insert t p.1 p.2) t

/-- The loop of `table_lookup` (mtftable.c:114-126): walk the entry sequence
from the current position; at each entry call `key_cmp_func(entry->key, key)`
and return the entry's value on the first zero result, otherwise advance.
Returns the C return value (`some value`, or `none` for the final
`return NULL`) together with the trace of argument pairs passed to the
comparison function, in call order. -/
def lookupLoop (cmp : κ → κ → Int) (key : κ) :
    List (κ × ν) → Option ν × List (κ × κ)
  | [] => (none, [])
  | (ek, ev) :: rest =>
    if cmp ek key = 0 then
      (some ev, [(ek, key)])
    else
      let r := lookupLoop cmp key rest
      (r.1, (ek, key) :: r.2)

/-- `table_lookup` (mtftable.c:110-129): the value returned to the caller. -/
def table_lookup (t : Table κ ν) (key : κ) : Option ν :=
  (lookupLoop t.key_cmp_func key t.entries).1

/-- The comparison-function calls made by `table_lookup`, as (first argument,
second argument) pairs in call order. -/
def table_lookup_cmp_calls (t : Table κ ν) (key : κ) : List (κ × κ) :=
  (lookupLoop t.key_cmp_func key t.entries).2

/-- The loop of `table_lookup` again, this time threading the table through
the computation. The C function receives `const table *t` and its body only
reads `t->entries` through dlist positions, so the table component of the
result is the unmodified `t` at every exit point (the early `return
entry->value` and the final `return NULL`). -/
def lookupLoopSt (t : Table κ ν) (key : κ) :
    List (κ × ν) → Option ν × Table κ ν
  | [] => (none, t)
  | (ek, ev) :: rest =>
    if t.key_cmp_func ek key = 0 then
      (some ev, t)
    else
      lookupLoopSt t key rest

/-- `table_lookup` (mtftable.c:110-129) with the post-call table made
explicit: the returned value together with the table as it stands when the
call returns. -/
def table_lookup_st (t : Table κ ν) (key : κ) : Option ν × Table κ ν :=
  lookupLoopSt t key t.entries

/-- The loop of `table_remove` (mtftable.c:146-168): walk the entry sequence;
on a zero comparison result call the key free function (if supplied) on the
entry's key, then the value free function (if supplied) on the entry's value,
then remove the node, continuing at the next position returned by
`dlist_remove` (modelled from the spec: remove-at-position yields the next
valid position); on a non-zero result keep the entry and advance. Returns the
surviving entries, the trace of free-function invocations, and the trace of
comparison-function argument pairs, each in call order. -/
def removeLoop (cmp : κ → κ → Int) (kf vf : Bool) (key : κ) :
    List (κ × ν) → List (κ × ν) × List (FreeEvent κ ν) × List (κ × κ)
  | [] => ([], [], [])
  | (ek, ev) :: rest =>
    let r := removeLoop cmp kf vf key rest
    if cmp ek key = 0 then
      (r.1,
       (if kf then [FreeEvent.freeKey ek] else []) ++
         (if vf then [FreeEvent.freeValue ev] else []) ++ r.2.1,
       (ek, key) :: r.2.2)
    else
      ((ek, ev) :: r.1, r.2.1, (ek, key) :: r.2.2)

/-- `table_remove` (mtftable.c:142-169): the table after the call, together
with the trace of free-function invocations it performed. -/
def table_remove (t : Table κ ν) (key : κ) :
    Table κ ν × List (FreeEvent κ ν) :=
  let r := removeLoop t.key_cmp_func t.key_free_func t.value_free_func key
    t.entries
  ({ t with entries := r.1 }, r.2.1)

/-- The comparison-function calls made by `table_remove`, as (first argument,
second argument) pairs in call order. -/
def table_remove_cmp_calls (t : Table κ ν) (key : κ) : List (κ × κ) :=
  (removeLoop t.key_cmp_func t.key_free_func t.value_free_func key
    t.entries).2.2

/-- The loop of `table_kill` (mtftable.c:185-199): for every entry, call the
key free function (if supplied) on its key and the value free function (if
supplied) on its value, then advance. Returns the trace of free-function
invocations in call order. -/
def killLoop (kf vf : Bool) : List (κ × ν) → List (FreeEvent κ ν)
  | [] => []
  | (ek, ev) :: rest =>
    (if kf then [FreeEvent.freeKey ek] else []) ++
      (if vf then [FreeEvent.freeValue ev] else []) ++ killLoop kf vf rest

/-- `table_kill` (mtftable.c:182-205): the trace of free-function invocations
performed while tearing the table down (after the loop the dlist and the
table header are freed, which the embedding models by not returning a
table). -/
def table_kill (t : Table κ ν) : List (FreeEvent κ ν) :=
  killLoop t.key_free_func t.value_free_func t.entries

/-- The loop of `table_print` (mtftable.c:210-218): at every entry call
`print_func(e->key, e->value)`, then advance. Returns the trace of visitor
calls, i.e. the (key, value) argument pairs in call order. -/
def printLoop : List (κ × ν) → List (κ × ν)
  | [] => []
  | e :: rest => e :: printLoop rest

/-- `table_print` (mtftable.c:207-219): the trace of visitor calls together
with the table as it stands when the call returns; the C function receives
`const table *t` and its body only reads the entries. -/
def table_print (t : Table κ ν) : List (κ × ν) × Table κ ν :=
  (printLoop t.entries, t)

/-- Equality comparator used by the spec scenarios, whose keys are strings
compared for structural equality (the zero/non-zero contract of
`compare_function`). -/
def strEqCmp (a b : String) : Int :=
  if a = b then 0 else 1

/-- A subtraction comparator on natural-number keys, used to instantiate
theorems with hypotheses at concrete inputs. -/
def natSubCmp (a b : Nat) : Int :=
  (a : Int) - (b : Int)

/-- A concrete table used to instantiate theorems with hypotheses: two
entries with keys 1 and 2, a key free function supplied, no value free
function. -/
def sampleTable : Table Nat Nat :=
  { entries := [(1, 10), (2, 20)]
    key_cmp_func := natSubCmp
    key_free_func := true
    value_free_func := false }

-- ===========HELPER LEMMAS============

theorem lookupLoop_fst (cmp : κ → κ → Int) (key : κ) (l : List (κ × ν)) :
    (lookupLoop cmp key l).1
      = (l.find? (fun p => cmp p.1 key == 0)).map Prod.snd := by
  induction l with
  | nil => rfl
  | cons e rest ih =>
    obtain ⟨ek, ev⟩ := e
    by_cases h : cmp ek key = 0
    · simp [lookupLoop, h, List.find?]
    · have hb : (cmp ek key == 0) = false := by simp [h]
      simp [lookupLoop, h, hb, List.find?, ih]

theorem lookupLoop_snd (cmp : κ → κ → Int) (key : κ) (l : List (κ × ν)) :
    (lookupLoop cmp key l).2
      = ((l.takeWhile fun p => !(cmp p.1 key == 0))
          ++ (l.dropWhile fun p => !(cmp p.1 key == 0)).take 1).map
            (fun p => (p.1, key)) := by
  induction l with
  | nil => rfl
  | cons e rest ih =>
    obtain ⟨ek, ev⟩ := e
    by_cases h : cmp ek key = 0
    · simp [lookupLoop, h, List.takeWhile_cons, List.dropWhile_cons]
    · simp [lookupLoop, h, List.takeWhile_cons, List.dropWhile_cons, ih]

theorem lookupLoopSt_snd (t : Table κ ν) (key : κ) (l : List (κ × ν)) :
    (lookupLoopSt t key l).2 = t := by
  induction l with
  | nil => rfl
  | cons e rest ih =>
    obtain ⟨ek, ev⟩ := e
    by_cases h : t.key_cmp_func ek key = 0
    · simp [lookupLoopSt, h]
    · simp [lookupLoopSt, h, ih]

theorem lookupLoopSt_fst (t : Table κ ν) (key : κ) (l : List (κ × ν)) :
    (lookupLoopSt t key l).1 = (lookupLoop t.key_cmp_func key l).1 := by
  induction l with
  | nil => rfl
  | cons e rest ih =>
    obtain ⟨ek, ev⟩ := e
    by_cases h : t.key_cmp_func ek key = 0
    · simp [lookupLoopSt, lookupLoop, h]
    · simp [lookupLoopSt, lookupLoop, h, ih]

theorem insertAll_entries (t : Table κ ν) (ops : List (κ × ν)) :
    (insertAll t ops).entries = ops.reverse ++ t.entries := by
  induction ops generalizing t with
  | nil => simp [insertAll]
  | cons p rest ih =>
    obtain ⟨k, v⟩ := p
    show (insertAll (table_insert t k v) rest).entries = _
    rw [ih]
    simp [table_insert]

theorem insertAll_cmp (t : Table κ ν) (ops : List (κ × ν)) :
    (insertAll t ops).key_cmp_func = t.key_cmp_func := by
  induction ops generalizing t with
  | nil => rfl
  | cons p rest ih =>
    obtain ⟨k, v⟩ := p
    show (insertAll (table_insert t k v) rest).key_cmp_func = _
    rw [ih]
    rfl

theorem removeLoop_entries (cmp : κ → κ → Int) (kf vf : Bool) (key : κ)
    (l : List (κ × ν)) :
    (removeLoop cmp kf vf key l).1
      = l.filter (fun p => !(cmp p.1 key == 0)) := by
  induction l with
  | nil => rfl
  | cons e rest ih =>
    obtain ⟨ek, ev⟩ := e
    by_cases h : cmp ek key = 0
    · simp [removeLoop, h, ih]
    · simp [removeLoop, h, ih]

theorem removeLoop_events (cmp : κ → κ → Int) (kf vf : Bool) (key : κ)
    (l : List (κ × ν)) :
    (removeLoop cmp kf vf key l).2.1
      = (l.filter (fun p => cmp p.1 key == 0)).flatMap
          (fun p => (if kf then [FreeEvent.freeKey p.1] else []) ++
            (if vf then [FreeEvent.freeValue p.2] else [])) := by
  induction l with
  | nil => rfl
  | cons e rest ih =>
    obtain ⟨ek, ev⟩ := e
    by_cases h : cmp ek key = 0
    · simp [removeLoop, h, ih]
    · simp [removeLoop, h, ih]

theorem removeLoop_calls (cmp : κ → κ → Int) (kf vf : Bool) (key : κ)
    (l : List (κ × ν)) :
    (removeLoop cmp kf vf key l).2.2 = l.map (fun p => (p.1, key)) := by
  induction l with
  | nil => rfl
  | cons e rest ih =>
    obtain ⟨ek, ev⟩ := e
    by_cases h : cmp ek key = 0
    · simp [removeLoop, h, ih]
    · simp [removeLoop, h, ih]

theorem killLoop_key_events (kf vf : Bool) (l : List (κ × ν)) :
    (killLoop kf vf l).filter FreeEvent.isKeyEvent
      = (if kf then l.map (fun p => FreeEvent.freeKey p.1) else []) := by
  induction l with
  | nil => cases kf <;> rfl
  | cons e rest ih =>
    obtain ⟨ek, ev⟩ := e
    cases kf <;> cases vf <;>
      simp_all [killLoop, FreeEvent.isKeyEvent]

theorem killLoop_value_events (kf vf : Bool) (l : List (κ × ν)) :
    (killLoop kf vf l).filter FreeEvent.isValueEvent
      = (if vf then l.map (fun p => FreeEvent.freeValue p.2) else []) := by
  induction l with
  | nil => cases vf <;> rfl
  | cons e rest ih =>
    obtain ⟨ek, ev⟩ := e
    cases kf <;> cases vf <;>
      simp_all [killLoop, FreeEvent.isValueEvent]

theorem printLoop_eq (l : List (κ × ν)) : printLoop l = l := by
  induction l with
  | nil => rfl
  | cons e rest ih => simp [printLoop, ih]

-- ===========CLAIM THEOREMS============

/-- C1: Latest-wins lookup. For every sequence of inserts into a fresh table,
`table_lookup` returns the value of the first entry (in forward scan order)
whose key compares equal to the query key; that value is the one passed to
the most recent insert whose key compares equal (the first match of the
reversed insert sequence); and the scan stops at the first match: the
comparison function is called exactly on the non-matching scanned entries
followed by the first matching entry, if any. -/
theorem lookup_latest_wins (cmp : κ → κ → Int) (kf vf : Bool)
    (ops : List (κ × ν)) (k : κ) :
    table_lookup (insertAll (table_empty cmp kf vf) ops) k
        = ((insertAll (table_empty cmp kf vf : Table κ ν) ops).entries.find?
            (fun p => cmp p.1 k == 0)).map Prod.snd
    ∧ table_lookup (insertAll (table_empty cmp kf vf) ops) k
        = (ops.reverse.find? (fun p => cmp p.1 k == 0)).map Prod.snd
    ∧ table_lookup_cmp_calls (insertAll (table_empty cmp kf vf) ops) k
        = (((insertAll (table_empty cmp kf vf : Table κ ν) ops).entries.takeWhile
              (fun p => !(cmp p.1 k == 0)))
            ++ ((insertAll (table_empty cmp kf vf : Table κ ν) ops).entries.dropWhile
              (fun p => !(cmp p.1 k == 0))).take 1).map (fun p => (p.1, k)) := by
  have hc : (insertAll (table_empty cmp kf vf : Table κ ν) ops).key_cmp_func
      = cmp := insertAll_cmp _ _
  refine ⟨?_, ?_, ?_⟩
  · rw [table_lookup, lookupLoop_fst, hc]
  · rw [table_lookup, lookupLoop_fst, hc, insertAll_entries]
    simp [table_empty]
  · rw [table_lookup_cmp_calls, lookupLoop_snd, hc]

/-- C2: `table_remove` keeps exactly the entries whose key does not compare
equal to the argument (so all matching entries are deleted), the surviving
entries form a sublist of the original ones (original relative order is
preserved), and when no entry matches the table is returned unchanged. -/
theorem remove_filter_semantics (t : Table κ ν) (key : κ) :
    (table_remove t key).1.entries
      = t.entries.filter (fun p => !(t.key_cmp_func p.1 key == 0))
    ∧ List.Sublist (table_remove t key).1.entries t.entries
    ∧ ((∀ p ∈ t.entries, t.key_cmp_func p.1 key ≠ 0) →
        (table_remove t key).1 = t) := by
  have h1 : (table_remove t key).1.entries
      = t.entries.filter (fun p => !(t.key_cmp_func p.1 key == 0)) := by
    have := removeLoop_entries t.key_cmp_func t.key_free_func t.value_free_func
      key t.entries
    simpa [table_remove] using this
  refine ⟨h1, ?_, fun hall => ?_⟩
  · rw [h1]
    exact List.filter_sublist _
  · have h2 : t.entries.filter (fun p => !(t.key_cmp_func p.1 key == 0))
        = t.entries :=
      List.filter_eq_self.2 (fun a ha => by simpa using hall a ha)
    have h3 : (table_remove t key).1
        = { t with entries :=
            t.entries.filter (fun p => !(t.key_cmp_func p.1 key == 0)) } := by
      have := removeLoop_entries t.key_cmp_func t.key_free_func
        t.value_free_func key t.entries
      simp [table_remove, this]
    rw [h3, h2]

/-- C2 witness: removing the absent key 5 from the sample table leaves it
unchanged. -/
theorem remove_filter_semantics_witness :
    (table_remove sampleTable 5).1 = sampleTable :=
  (remove_filter_semantics sampleTable 5).2.2 (by decide)

/-- C3: inserts go to the head of the sequence (existing entries keep their
order, shifted after the new one), removal leaves a sublist (never reorders),
and the concrete scenario holds: after inserting "x" then "y" then "z" into
an empty table, traversal visits the pairs in order z, y, x. -/
theorem insert_head_and_order (t : Table κ ν) (k : κ) (v : ν) (key : κ) :
    (table_insert t k v).entries = (k, v) :: t.entries
    ∧ List.Sublist (table_remove t key).1.entries t.entries
    ∧ (table_print (insertAll (table_empty strEqCmp false false)
        [("x", 1), ("y", 2), ("z", 3)])).1
      = [("z", 3), ("y", 2), ("x", 1)] := by
  refine ⟨rfl, ?_, by decide⟩
  have h1 : (table_remove t key).1.entries
      = t.entries.filter (fun p => !(t.key_cmp_func p.1 key == 0)) := by
    have := removeLoop_entries t.key_cmp_func t.key_free_func t.value_free_func
      key t.entries
    simpa [table_remove] using this
  rw [h1]
  exact List.filter_sublist _

/-- C4: `table_kill` invokes the key free function exactly once per surviving
entry (in order) when one was supplied and never when it was omitted, and
likewise for the value free function. -/
theorem kill_free_once_per_entry (t : Table κ ν) :
    (table_kill t).filter FreeEvent.isKeyEvent
      = (if t.key_free_func then
          t.entries.map (fun p => FreeEvent.freeKey p.1) else [])
    ∧ (table_kill t).filter FreeEvent.isValueEvent
      = (if t.value_free_func then
          t.entries.map (fun p => FreeEvent.freeValue p.2) else []) :=
  ⟨killLoop_key_events _ _ _, killLoop_value_events _ _ _⟩

/-- C5: the free-function invocations of `table_remove` are exactly, in
order: for each matching entry, its key freed (when a key free function was
supplied) then its value freed (when a value free function was supplied);
each at most once per removed entry and never for non-matching entries. -/
theorem remove_free_only_matching (t : Table κ ν) (key : κ) :
    (table_remove t key).2
      = (t.entries.filter (fun p => t.key_cmp_func p.1 key == 0)).flatMap
          (fun p => (if t.key_free_func then [FreeEvent.freeKey p.1] else []) ++
            (if t.value_free_func then [FreeEvent.freeValue p.2] else [])) := by
  have := removeLoop_events t.key_cmp_func t.key_free_func t.value_free_func
    key t.entries
  simpa [table_remove] using this

/-- C6: lookup on an empty table returns the not-found sentinel (`none`,
modelling NULL), and lookup on any table in which no entry's key compares
equal to the query key returns the not-found sentinel. -/
theorem lookup_absent_not_found (cmp : κ → κ → Int) (kf vf : Bool)
    (t : Table κ ν) (k : κ) :
    table_lookup (table_empty cmp kf vf : Table κ ν) k = none
    ∧ ((∀ p ∈ t.entries, t.key_cmp_func p.1 k ≠ 0) →
        table_lookup t k = none) := by
  refine ⟨rfl, fun hall => ?_⟩
  rw [table_lookup, lookupLoop_fst]
  have hn : t.entries.find? (fun p => t.key_cmp_func p.1 k == 0) = none := by
    rw [List.find?_eq_none]
    intro p hp
    simpa using hall p hp
  rw [hn]
  rfl

/-- C6 witness: lookup of key 5 in a fresh empty table and in the sample
table (which has no key comparing equal to 5) both return `none`. -/
theorem lookup_absent_not_found_witness :
    table_lookup (table_empty natSubCmp true false : Table Nat Nat) 5 = none
    ∧ table_lookup sampleTable 5 = none :=
  ⟨(lookup_absent_not_found natSubCmp true false sampleTable 5).1,
   (lookup_absent_not_found natSubCmp true false sampleTable 5).2 (by decide)⟩

/-- C7: `table_is_empty` is true exactly when the table holds no entries; it
is true for a freshly created table, and true again after
insert(("a", 1)); insert(("a", 2)); remove("a") on a fresh table. -/
theorem is_empty_iff_no_entries (t : Table κ ν) :
    (table_is_empty t = true ↔ t.entries = [])
    ∧ table_is_empty (table_empty strEqCmp true true : Table String Nat) = true
    ∧ table_is_empty (table_remove (table_insert (table_insert
        (table_empty strEqCmp true true) "a" 1) "a" 2) "a").1 = true := by
  refine ⟨?_, rfl, by decide⟩
  simp [table_is_empty]

/-- C8: traversal (`table_print`) calls the visitor exactly once per live
entry, passing each entry's key and value, in sequence order from head to
tail, and returns with the table unchanged: no entries added, removed or
reordered. -/
theorem traversal_visits_each_entry (t : Table κ ν) :
    (table_print t).1 = t.entries ∧ (table_print t).2 = t :=
  ⟨printLoop_eq _, rfl⟩

/-- C9: despite the repository's move-to-front name, `table_lookup` performs
no mutation: the table after the call is identical to the table before it
(also when a match is found and an entry is returned), and the returned value
agrees with the pure lookup result. -/
theorem lookup_does_not_mutate (t : Table κ ν) (key : κ) :
    (table_lookup_st t key).2 = t
    ∧ (table_lookup_st t key).1 = table_lookup t key :=
  ⟨lookupLoopSt_snd t key t.entries, lookupLoopSt_fst t key t.entries⟩

/-- C10: every call the table makes to the key comparison function passes the
entry's stored key as the first argument and the caller-supplied query key as
the second: in lookup every recorded call pair has the query key second and a
stored key first, and in remove the call trace is exactly the stored keys in
order, each paired with the query key in second position. -/
theorem cmp_receives_stored_then_query (t : Table κ ν) (key : κ) :
    (∀ c ∈ table_lookup_cmp_calls t key,
        c.2 = key ∧ c.1 ∈ t.entries.map Prod.fst)
    ∧ table_remove_cmp_calls t key = t.entries.map (fun p => (p.1, key)) := by
  constructor
  · intro c hc
    rw [table_lookup_cmp_calls, lookupLoop_snd] at hc
    obtain ⟨p, hp, rfl⟩ := List.mem_map.1 hc
    refine ⟨rfl, ?_⟩
    have hsub : List.Sublist
        ((t.entries.takeWhile fun p => !(t.key_cmp_func p.1 key == 0))
          ++ (t.entries.dropWhile fun p => !(t.key_cmp_func p.1 key == 0)).take 1)
        t.entries := by
      have h := List.Sublist.append
        (List.Sublist.refl
          (t.entries.takeWhile fun p => !(t.key_cmp_func p.1 key == 0)))
        (List.take_sublist 1
          (t.entries.dropWhile fun p => !(t.key_cmp_func p.1 key == 0)))
      simpa [List.takeWhile_append_dropWhile] using h
    exact List.mem_map_of_mem Prod.fst (hsub.mem hp)
  · exact removeLoop_calls t.key_cmp_func t.key_free_func t.value_free_func
      key t.entries

/-- C10 witness: looking up key 5 in the sample table records the call pair
(1, 5); its second component is the query key and its first component is a
stored key. -/
theorem cmp_receives_stored_then_query_witness :
    (((1 : Nat), (5 : Nat)).2 = 5
      ∧ ((1 : Nat), (5 : Nat)).1 ∈ sampleTable.entries.map Prod.fst) :=
  (cmp_receives_stored_then_query sampleTable 5).1 (1, 5) (by decide)

end MTFTable
